import Mathlib

/-!
# Port scanner (`main.go`): a shallow embedding and its verification

The Go program is embedded as follows.

* A Go `string` is a `List Char`: the sequence of its Unicode code points
  (every valid UTF-8 string is covered).
* A Go `int` is a mathematical `Int` kept inside the 64-bit two's complement
  range; the only arithmetic that can leave the range, `p++` in the range loop
  of `parsePorts`, wraps explicitly (`wrapInt`).
* `strings.Split`, `strings.TrimSpace`, `strconv.Atoi` and `strconv.Itoa` come
  from the Go standard library; they are modelled from their documented
  behaviour.
* The goroutines of one target's scan (main and the workers) are a
  deterministic step function over an explicit state, driven by a schedule:
  the list of scheduling decisions (which goroutine moves next, and, for a
  worker that probes a port, what the network answered).
-/

namespace PortScanner

/-- A Go string, as the list of its code points. -/
abbrev GoString := List Char

/-! ## Machine integers -/

/-- Width of the Go `int` type (64-bit platforms). -/
def intSize : Nat := 64

/-- Largest `int`. -/
def maxInt : Int := 2 ^ (intSize - 1) - 1

/-- Smallest `int`. -/
def minInt : Int := -(2 ^ (intSize - 1))

/-- Two's complement wrap-around of a mathematical integer into the `int` range. -/
def wrapInt (x : Int) : Int := (x + 2 ^ (intSize - 1)) % 2 ^ intSize - 2 ^ (intSize - 1)

/-! ## Standard library: `strings` and `strconv` -/

/-- White space as `unicode.IsSpace` defines it (what `strings.TrimSpace` removes). -/
def isSpace (c : Char) : Bool :=
  c = '\t' || c = '\n' || c = Char.ofNat 0x0B || c = Char.ofNat 0x0C || c = '\r' || c = ' '
    || c = Char.ofNat 0x85 || c = Char.ofNat 0xA0 || c = Char.ofNat 0x1680
    || (0x2000 ≤ c.toNat && c.toNat ≤ 0x200A)
    || c = Char.ofNat 0x2028 || c = Char.ofNat 0x2029 || c = Char.ofNat 0x202F
    || c = Char.ofNat 0x205F || c = Char.ofNat 0x3000

/-- Go `strings.TrimSpace`: drop leading and trailing white space. -/
def TrimSpace (s : GoString) : GoString :=
  ((s.dropWhile isSpace).reverse.dropWhile isSpace).reverse

/-- Go `strings.Split(s, sep)` for a one-character separator: the pieces of `s`
between the occurrences of `sep`; `n` separators give `n + 1` pieces and the
empty string gives one empty piece. -/
def Split (s : GoString) (sep : Char) : List GoString :=
  match s with
  | [] => [[]]
  | c :: cs =>
    if c = sep then [] :: Split cs sep
    else
      match Split cs sep with
      | [] => [[c]]
      | piece :: pieces => (c :: piece) :: pieces

/-- Value of a decimal digit character, if it is one. -/
def digitVal (c : Char) : Option Nat :=
  if 48 ≤ c.toNat ∧ c.toNat ≤ 57 then some (c.toNat - 48) else none

/-- The digit loop of `strconv.ParseUint` in base 10: every character has to be
a decimal digit; the value is accumulated most significant digit first. -/
def parseDigits (acc : Nat) (s : GoString) : Option Nat :=
  match s with
  | [] => some acc
  | c :: cs =>
    match digitVal c with
    | none => none
    | some d => parseDigits (acc * 10 + d) cs

/-- Unsigned part of `strconv.Atoi`: at least one character, all of them digits. -/
def parseUnsigned (s : GoString) : Option Nat :=
  match s with
  | [] => none
  | _ :: _ => parseDigits 0 s

/-- Go `strconv.Atoi`: an optional sign `+` or `-`, then one or more decimal
digits, and the value has to fit an `int`; `none` stands for a non-nil error
(syntax or range). -/
def Atoi (s : GoString) : Option Int :=
  match s with
  | [] => none
  | c :: cs =>
    if c = '-' then
      match parseUnsigned cs with
      | none => none
      | some n => if (n : Int) ≤ 2 ^ (intSize - 1) then some (-(n : Int)) else none
    else if c = '+' then
      match parseUnsigned cs with
      | none => none
      | some n => if (n : Int) < 2 ^ (intSize - 1) then some (n : Int) else none
    else
      match parseUnsigned s with
      | none => none
      | some n => if (n : Int) < 2 ^ (intSize - 1) then some (n : Int) else none

/-- The character of a decimal digit. -/
def digitChar (d : Nat) : Char := Char.ofNat (48 + d)

/-- Decimal digits of a natural number, most significant first, no leading
zero; `fuel` bounds the number of digits (`n + 1` is always enough). -/
def formatNat (fuel n : Nat) : GoString :=
  match fuel with
  | 0 => []
  | fuel + 1 => if n < 10 then [digitChar n] else formatNat fuel (n / 10) ++ [digitChar (n % 10)]

/-- Go `strconv.Itoa`: the decimal rendering of an `int`, with a leading `-`
for a negative number. -/
def Itoa (i : Int) : GoString :=
  if i < 0 then '-' :: formatNat (i.natAbs + 1) i.natAbs else formatNat (i.natAbs + 1) i.natAbs

/-! ## `parsePorts` -/

/-- Text of the error for an unparsable token. -/
def invalidPortMsg (pStr : GoString) : GoString := "invalid port: ".toList ++ pStr

/-- Text of the error for an inverted range. -/
def rangeErrorMsg : GoString := "start-port cannot be greater than end-port".toList

/-- What `parsePorts` returns: the slice of ports and the error (`none` is `nil`). -/
abbrev PortsResult := List Int × Option GoString

/-- The loop `for _, pStr := range parts` of `parsePorts`, with the slice
`ports` built so far. -/
def explicitLoop (parts : List GoString) (ports : List Int) : PortsResult :=
  match parts with
  | [] => (ports, none)
  | pStr :: rest =>
    let pStr := TrimSpace pStr
    match Atoi pStr with
    | none => ([], some (invalidPortMsg pStr))
    | some p => explicitLoop rest (ports ++ [p])

/-- The loop `for p := startPort; p <= endPort; p++` of `parsePorts`, with the
slice `ports` built so far. `p++` wraps around at `maxInt`; `fuel` bounds the
number of condition checks, and `none` means that the loop is still running
when the fuel is used up. -/
def rangeLoop (fuel : Nat) (p endPort : Int) (ports : List Int) : Option (List Int) :=
  match fuel with
  | 0 => none
  | fuel + 1 =>
    if p ≤ endPort then rangeLoop fuel (wrapInt (p + 1)) endPort (ports ++ [p])
    else some ports

/-- Go `parsePorts(portsFlag, startPort, endPort)`. The result is `none` when
the range loop has not finished within `fuel` condition checks. -/
def parsePorts (fuel : Nat) (portsFlag : GoString) (startPort endPort : Int) :
    Option PortsResult :=
  if portsFlag ≠ [] then
    some (explicitLoop (Split portsFlag ',') [])
  else if startPort > endPort then
    some ([], some rangeErrorMsg)
  else
    match rangeLoop fuel startPort endPort [] with
    | none => none
    | some ports => some (ports, none)

/-- One token of an explicit port list as the user may type it: the decimal
rendering of `value` with white space `before` and `after`. -/
structure PaddedPort where
  before : GoString
  value : Int
  after : GoString
  deriving DecidableEq

/-- The text of a padded token. -/
def PaddedPort.render (t : PaddedPort) : GoString := t.before ++ Itoa t.value ++ t.after

/-- Tokens joined with commas (`strings.Join(tokens, ",")`). -/
def joinComma (tokens : List GoString) : GoString :=
  match tokens with
  | [] => []
  | [t] => t
  | t :: rest => t ++ ',' :: joinComma rest

/-- The integers `p, p + 1, ..., p + n - 1`. -/
def intRange (p : Int) (n : Nat) : List Int := (List.range n).map (fun (i : Nat) => p + (i : Int))

/-! ## Data model -/

/-- Go `PortResult`: the scan result for a single port; an empty `Banner` is
an absent banner (`omitempty`). -/
structure PortResult where
  Port : Int
  Open : Bool
  Banner : GoString
  deriving DecidableEq

/-- Go `TargetScanResult`: the scan summary for one target. -/
structure TargetScanResult where
  Target : GoString
  Results : List PortResult
  OpenCount : Int
  TotalPorts : Int
  Duration : GoString
  deriving DecidableEq

/-- Go `Task`: a port scan job for a specific target. -/
structure Task where
  Target : GoString
  Port : Int
  deriving DecidableEq

/-! ## `scanPort` -/

/-- What the single `conn.Read(buffer)` returned: the byte count `n`, whether
`err` is non-nil (a read error or the expired deadline), and `text`, the
string `string(buffer[:n])`. -/
structure ReadOutcome where
  n : Nat
  err : Bool
  text : GoString
  deriving DecidableEq

/-- What `dialer.Dial("tcp", address)` returned: an error, or a connection,
which is represented by what its one read will return. -/
inductive DialOutcome where
  | failed
  | connected (read : ReadOutcome)
  deriving DecidableEq

/-- Go `net.JoinHostPort`: `host:port`, with the host in brackets when it
contains a colon. -/
def JoinHostPort (host port : GoString) : GoString :=
  if ':' ∈ host then '[' :: host ++ ']' :: ':' :: port else host ++ ':' :: port

/-- Go `scanPort(target, port, dialer)`; `dialer` maps the dialled address to
what the network answers. -/
def scanPort (target : GoString) (port : Int) (dialer : GoString → DialOutcome) : PortResult :=
  let address := JoinHostPort target (Itoa port)
  match dialer address with
  | .failed => { Port := port, Open := false, Banner := [] }
  | .connected read =>
    let result : PortResult := { Port := port, Open := true, Banner := [] }
    if read.err = false ∧ read.n > 0 then { result with Banner := TrimSpace read.text }
    else result

/-- The reference behaviour of a probe, following the specification: the port
is the input port, a failed connection gives a closed port without banner, an
established one gives an open port whose banner is the trimmed data if data
was read without error and is absent otherwise. -/
def scanPortSpec (target : GoString) (port : Int) (dialer : GoString → DialOutcome) :
    PortResult :=
  { Port := port
    Open :=
      match dialer (JoinHostPort target (Itoa port)) with
      | .failed => false
      | .connected _ => true
    Banner :=
      match dialer (JoinHostPort target (Itoa port)) with
      | .failed => []
      | .connected read => if read.err = false ∧ 0 < read.n then TrimSpace read.text else [] }

/-! ## The scan of one target: main and the worker pool -/

/-- Wrap-around of `atomic.AddInt32`. -/
def wrapInt32 (x : Int) : Int := (x + 2 ^ 31) % 2 ^ 32 - 2 ^ 31

/-- What is fixed during the scan of one target: the target, the ports
returned by `parsePorts` and the `-workers` flag. Both channels are made with
capacity `len(ports)`. -/
structure ScanConfig where
  target : GoString
  ports : List Int
  workers : Int

/-- Where a worker goroutine stands in `worker`. -/
inductive WorkerPc where
  /-- At `for task := range jobs`, about to receive. -/
  | receiving
  /-- Past `scanPort`, at `results <- result`. -/
  | sending (task : Task) (result : PortResult)
  /-- At `atomic.AddInt32(progress, 1)` and the progress line. -/
  | counting (task : Task)
  /-- Returned; the deferred `wg.Done()` has run. -/
  | exited
  deriving DecidableEq

/-- Where the main goroutine stands in the body of the loop over the targets. -/
inductive MainPc where
  /-- In `for i := 0; i < *workers; i++`, at the test, with this `i`. -/
  | launching (i : Int)
  /-- In `for _, port := range ports`, with these ports left; `close(jobs)` follows. -/
  | enqueuing (rest : List Int)
  /-- At `wg.Wait()`; `close(resultsChan)` follows. -/
  | waiting
  /-- In `for res := range resultsChan`. -/
  | collecting
  /-- Past the collection loop. -/
  | finished
  deriving DecidableEq

/-- The shared state of the scan of one target. -/
structure ScanState where
  main : MainPc
  workers : List WorkerPc
  /-- Counter of the wait group. -/
  wg : Nat
  /-- Buffer of the channel `jobs`, oldest first. -/
  jobs : List Task
  jobsClosed : Bool
  /-- Buffer of the channel `resultsChan`, oldest first. -/
  resultsChan : List PortResult
  resultsClosed : Bool
  progress : Int
  targetResults : List PortResult
  openCount : Int
  /-- A goroutine has sent on a closed channel. -/
  panicked : Bool
  deriving DecidableEq

/-- One scheduling decision: the goroutine that is given the processor, and,
for a worker, the network as it answers should the worker probe a port now. -/
inductive Event where
  | main
  | worker (i : Nat) (dialer : GoString → DialOutcome)

/-- The state when main reaches the worker launch loop: fresh channels, no
worker, zero counters. -/
def ScanState.init : ScanState :=
  { main := .launching 0, workers := [], wg := 0, jobs := [], jobsClosed := false,
    resultsChan := [], resultsClosed := false, progress := 0, targetResults := [],
    openCount := 0, panicked := false }

/-- One step of the main goroutine; a blocked operation leaves the state as it is. -/
def mainStep (cfg : ScanConfig) (s : ScanState) : ScanState :=
  match s.main with
  | .launching i =>
    if i < cfg.workers then
      { s with wg := s.wg + 1, workers := s.workers ++ [.receiving], main := .launching (i + 1) }
    else { s with main := .enqueuing cfg.ports }
  | .enqueuing (port :: rest) =>
    if s.jobsClosed then { s with panicked := true }
    else if s.jobs.length < cfg.ports.length then
      { s with jobs := s.jobs ++ [{ Target := cfg.target, Port := port }], main := .enqueuing rest }
    else s
  | .enqueuing [] => { s with jobsClosed := true, main := .waiting }
  | .waiting =>
    if s.wg = 0 then { s with resultsClosed := true, main := .collecting } else s
  | .collecting =>
    match s.resultsChan with
    | res :: rest =>
      { s with
        resultsChan := rest
        targetResults := s.targetResults ++ [res]
        openCount := if res.Open then s.openCount + 1 else s.openCount }
    | [] => if s.resultsClosed then { s with main := .finished } else s
  | .finished => s

/-- One step of worker `i`; a blocked operation leaves the state as it is. The
probe `scanPort` touches no shared state and is taken together with the
receive that precedes it; the send and the progress update are steps of their
own. -/
def workerStep (cfg : ScanConfig) (s : ScanState) (i : Nat) (dialer : GoString → DialOutcome) :
    ScanState :=
  match s.workers[i]? with
  | none => s
  | some .receiving =>
    match s.jobs with
    | task :: rest =>
      { s with
        jobs := rest
        workers := s.workers.set i (.sending task (scanPort task.Target task.Port dialer)) }
    | [] =>
      if s.jobsClosed then { s with workers := s.workers.set i .exited, wg := s.wg - 1 } else s
  | some (.sending task result) =>
    if s.resultsClosed then { s with panicked := true }
    else if s.resultsChan.length < cfg.ports.length then
      { s with resultsChan := s.resultsChan ++ [result], workers := s.workers.set i (.counting task) }
    else s
  | some (.counting _) =>
    { s with progress := wrapInt32 (s.progress + 1), workers := s.workers.set i .receiving }
  | some .exited => s

/-- One step of the scan: the scheduled goroutine moves, unless the program
has panicked. -/
def step (cfg : ScanConfig) (s : ScanState) (e : Event) : ScanState :=
  if s.panicked then s
  else
    match e with
    | .main => mainStep cfg s
    | .worker i dialer => workerStep cfg s i dialer

/-- The state after a schedule. -/
def run (cfg : ScanConfig) (s : ScanState) (sched : List Event) : ScanState :=
  sched.foldl (step cfg) s

/-- Whether main is past the collection loop. -/
def MainPc.isFinished : MainPc → Bool
  | .finished => true
  | _ => false

/-- Whether main is past the worker launch loop. -/
def MainPc.hasLaunched : MainPc → Bool
  | .launching _ => false
  | _ => true

/-- The body of the loop over the targets, for one target: the summary that is
appended to `allTargetResults` once the scan has run under the schedule
`sched`; `none` if main has not got past the collection loop by the end of
the schedule, or if the program panicked. `duration` is the text of the
elapsed time. -/
def scanTarget (cfg : ScanConfig) (sched : List Event) (duration : GoString) :
    Option TargetScanResult :=
  let s := run cfg ScanState.init sched
  if s.main.isFinished ∧ s.panicked = false then
    some
      { Target := cfg.target
        Results := s.targetResults
        OpenCount := s.openCount
        TotalPorts := (cfg.ports.length : Int)
        Duration := duration }
  else none

/-- The loop `for _, target := range targets` of `main`, with
`allTargetResults` built so far; `envs` gives, target by target, the schedule
of the scan and the elapsed time. -/
def scanSession (ports : List Int) (workers : Int) (targets : List GoString)
    (envs : List (List Event × GoString)) (allTargetResults : List TargetScanResult) :
    Option (List TargetScanResult) :=
  match targets, envs with
  | [], _ => some allTargetResults
  | _ :: _, [] => none
  | target :: targets, env :: envs =>
    match scanTarget { target := target, ports := ports, workers := workers } env.1 env.2 with
    | none => none
    | some summary => scanSession ports workers targets envs (allTargetResults ++ [summary])

/-! ## Invariant and termination measure of the scan -/

/-- The ports that main has still to send on `jobs`. -/
def MainPc.remaining (ports : List Int) : MainPc → List Int
  | .launching _ => ports
  | .enqueuing rest => rest
  | _ => []

/-- Whether main is past `close(jobs)`. -/
def MainPc.hasClosedJobs : MainPc → Bool
  | .launching _ => false
  | .enqueuing _ => false
  | _ => true

/-- Whether main is past `wg.Wait()` and `close(resultsChan)`. -/
def MainPc.hasWaited : MainPc → Bool
  | .collecting => true
  | .finished => true
  | _ => false

/-- The port whose result a worker holds and has not sent yet. -/
def WorkerPc.holding : WorkerPc → Multiset Int
  | .sending _ result => {result.Port}
  | _ => 0

/-- What a worker contributes to the wait group counter. -/
def WorkerPc.live : WorkerPc → Nat
  | .exited => 0
  | _ => 1

/-- Number of steps a worker can still take without receiving a new task. -/
def WorkerPc.weight : WorkerPc → Nat
  | .receiving => 1
  | .sending _ _ => 4
  | .counting _ => 2
  | .exited => 0

/-- Number of steps main can still take, the ports to enqueue and the results
to collect apart. -/
def MainPc.weight (workers : Int) : MainPc → Nat
  | .launching i => 2 * (workers - i).toNat + 4
  | .enqueuing _ => 3
  | .waiting => 2
  | .collecting => 1
  | .finished => 0

/-- A bound on the number of steps that change the state. -/
def ScanState.measure (cfg : ScanConfig) (s : ScanState) : Nat :=
  s.main.weight cfg.workers + 5 * (s.main.remaining cfg.ports).length + 4 * s.jobs.length
    + (s.workers.map WorkerPc.weight).sum + s.resultsChan.length

/-- What holds in every state of the scan of one target. -/
structure Inv (cfg : ScanConfig) (s : ScanState) : Prop where
  /-- No send on a closed channel has happened. -/
  noPanic : s.panicked = false
  /-- Every port is in exactly one place: still to enqueue, in `jobs`, held by
  a worker, in `resultsChan`, or collected. -/
  conserve :
    ((s.main.remaining cfg.ports : List Int) : Multiset Int)
      + ((s.jobs.map Task.Port : List Int) : Multiset Int)
      + (s.workers.map WorkerPc.holding).sum
      + ((s.resultsChan.map PortResult.Port : List Int) : Multiset Int)
      + ((s.targetResults.map PortResult.Port : List Int) : Multiset Int)
      = ((cfg.ports : List Int) : Multiset Int)
  /-- The wait group counts the workers that have not returned. -/
  counter : s.wg = (s.workers.map WorkerPc.live).sum
  jobsFlag : s.jobsClosed = s.main.hasClosedJobs
  resultsFlag : s.resultsClosed = s.main.hasWaited
  /-- Past `wg.Wait()` every worker has returned. -/
  joined : s.main.hasWaited = true → ∀ w ∈ s.workers, w = WorkerPc.exited
  /-- A worker returns only from an empty, closed `jobs`. -/
  drainedJobs : WorkerPc.exited ∈ s.workers → s.jobs = [] ∧ s.jobsClosed = true
  /-- The launch loop has started `i` workers when its counter is `i`. -/
  launched :
    match s.main with
    | .launching i => 0 ≤ i ∧ (i ≤ cfg.workers ∨ i = 0) ∧ s.workers.length = i.toNat
    | _ => s.workers.length = cfg.workers.toNat
  /-- The collection loop ends on an empty `resultsChan`. -/
  drainedResults : s.main.isFinished = true → s.resultsChan = []
  /-- `openCount` counts the open ports collected so far. -/
  opens : s.openCount = ((s.targetResults.countP (fun r => r.Open) : Nat) : Int)

/-- Number of steps of a schedule that change the state (the moves of
goroutines that are not blocked). -/
def effectiveSteps (cfg : ScanConfig) (s : ScanState) (sched : List Event) : Nat :=
  match sched with
  | [] => 0
  | e :: rest =>
    (if step cfg s e = s then 0 else 1) + effectiveSteps cfg (step cfg s e) rest

/-! ## Concrete inputs -/

/-- A network on which every port answers at once with a greeting. -/
def demoNet : GoString → DialOutcome :=
  fun _ => .connected { n := 7, err := false, text := " hello\n".toList }

/-- A network on which every connection is refused. -/
def closedNet : GoString → DialOutcome := fun _ => .failed

/-- Two ports scanned by two workers. -/
def demoConfig : ScanConfig := { target := "host".toList, ports := [80, 22], workers := 2 }

/-- A complete run of `demoConfig` in which the second worker overtakes the
first one. -/
def demoSchedule : List Event :=
  [.main, .main, .main, .main, .worker 1 demoNet, .main, .worker 0 closedNet,
   .worker 0 closedNet, .main, .worker 1 demoNet, .worker 0 closedNet, .worker 1 demoNet,
   .worker 1 demoNet, .worker 0 closedNet, .main, .main, .main, .main]

/-- One port and the flag `-workers 0`. -/
def idleConfig : ScanConfig := { target := "host".toList, ports := [80], workers := 0 }

/-- A complete run of `idleConfig`: only main moves. -/
def idleSchedule : List Event := [.main, .main, .main, .main, .main]

/-! ## Lemmas on the string functions -/

theorem Split_ne_nil (s : GoString) (sep : Char) : Split s sep ≠ [] := by
  induction s with
  | nil => simp [Split]
  | cons c cs ih =>
    unfold Split
    split
    · simp
    · split <;> simp

theorem Split_of_not_mem (t : GoString) (sep : Char) (h : sep ∉ t) : Split t sep = [t] := by
  induction t with
  | nil => simp [Split]
  | cons c cs ih =>
    have hc : c ≠ sep := fun e => h (by simp [e])
    have hcs : sep ∉ cs := fun e => h (by simp [e])
    unfold Split
    rw [if_neg hc, ih hcs]

theorem Split_append_sep (t rest : GoString) (sep : Char) (h : sep ∉ t) :
    Split (t ++ sep :: rest) sep = t :: Split rest sep := by
  induction t with
  | nil => simp [Split]
  | cons c cs ih =>
    have hc : c ≠ sep := fun e => h (by simp [e])
    have hcs : sep ∉ cs := fun e => h (by simp [e])
    show Split (c :: (cs ++ sep :: rest)) sep = _
    rw [Split, if_neg hc, ih hcs]

theorem Split_joinComma (tokens : List GoString) (hne : tokens ≠ [])
    (h : ∀ t ∈ tokens, ',' ∉ t) : Split (joinComma tokens) ',' = tokens := by
  induction tokens with
  | nil => exact absurd rfl hne
  | cons t rest ih =>
    cases rest with
    | nil => simpa [joinComma] using Split_of_not_mem t ',' (h t (by simp))
    | cons t2 rest2 =>
      have h1 : ',' ∉ t := h t (by simp)
      have h2 : ∀ u ∈ t2 :: rest2, ',' ∉ u := fun u hu => h u (by simp [hu])
      show Split (t ++ ',' :: joinComma (t2 :: rest2)) ',' = _
      rw [Split_append_sep _ _ _ h1, ih (by simp) h2]

theorem dropWhile_append_of_all (p : Char → Bool) (pre l : GoString)
    (h : ∀ c ∈ pre, p c = true) : (pre ++ l).dropWhile p = l.dropWhile p := by
  induction pre with
  | nil => rfl
  | cons c cs ih =>
    have hc : p c = true := h c (by simp)
    have hcs : ∀ d ∈ cs, p d = true := fun d hd => h d (by simp [hd])
    simp [List.dropWhile, hc, ih hcs]

theorem dropWhile_of_none (p : Char → Bool) (l : GoString)
    (h : ∀ c ∈ l, p c = false) : l.dropWhile p = l := by
  cases l with
  | nil => rfl
  | cons c cs => simp [List.dropWhile, h c (by simp)]

theorem TrimSpace_padded (pre body post : GoString)
    (hpre : ∀ c ∈ pre, isSpace c = true) (hpost : ∀ c ∈ post, isSpace c = true)
    (hbody : ∀ c ∈ body, isSpace c = false) :
    TrimSpace (pre ++ body ++ post) = body := by
  unfold TrimSpace
  rw [List.append_assoc, dropWhile_append_of_all _ _ _ hpre]
  have h1 : (body ++ post).dropWhile isSpace
      = if body = [] then [] else body ++ post := by
    cases body with
    | nil =>
      simp only [List.nil_append, if_true]
      have := dropWhile_append_of_all isSpace post [] hpost
      simpa using this
    | cons c cs => simp [List.dropWhile, hbody c (by simp)]
  rw [h1]
  split
  · next hb => simp [hb]
  · rw [List.reverse_append,
      dropWhile_append_of_all _ _ _ (fun c hc => hpost c (List.mem_reverse.mp hc)),
      dropWhile_of_none _ _ (fun c hc => hbody c (List.mem_reverse.mp hc)), List.reverse_reverse]

theorem TrimSpace_of_all_space (tok : GoString) (h : ∀ c ∈ tok, isSpace c = true) :
    TrimSpace tok = [] := by
  have := TrimSpace_padded tok [] [] h (by simp) (by simp)
  simpa using this

theorem digitVal_digitChar (d : Nat) (h : d < 10) : digitVal (digitChar d) = some d := by
  interval_cases d <;> rfl

theorem digitChar_plain (d : Nat) (h : d < 10) :
    digitChar d ≠ ',' ∧ digitChar d ≠ '-' ∧ digitChar d ≠ '+' ∧ isSpace (digitChar d) = false := by
  interval_cases d <;> decide

theorem parseDigits_concat (acc : Nat) (l : GoString) (c : Char) :
    parseDigits acc (l ++ [c])
      = (parseDigits acc l).bind (fun v => (digitVal c).map (fun d => v * 10 + d)) := by
  induction l generalizing acc with
  | nil =>
    simp only [List.nil_append, parseDigits, Option.some_bind]
    cases digitVal c <;> rfl
  | cons a l ih =>
    simp only [List.cons_append, parseDigits]
    cases digitVal a with
    | none => rfl
    | some d => exact ih _

theorem formatNat_ne_nil (fuel n : Nat) : formatNat (fuel + 1) n ≠ [] := by
  unfold formatNat
  split <;> simp

theorem formatNat_digits (fuel n : Nat) :
    ∀ c ∈ formatNat fuel n, ∃ d, d < 10 ∧ c = digitChar d := by
  induction fuel generalizing n with
  | zero => simp [formatNat]
  | succ fuel ih =>
    intro c hc
    unfold formatNat at hc
    split at hc
    · next h => exact ⟨n, h, by simpa using hc⟩
    · rcases List.mem_append.mp hc with h1 | h1
      · exact ih _ c h1
      · exact ⟨n % 10, Nat.mod_lt _ (by decide), by simpa using h1⟩

theorem parseDigits_formatNat (fuel n : Nat) (h : n < fuel) :
    parseDigits 0 (formatNat fuel n) = some n := by
  induction fuel generalizing n with
  | zero => omega
  | succ fuel ih =>
    unfold formatNat
    split
    · next h10 => simp [parseDigits, digitVal_digitChar n h10]
    · next h10 =>
      have hlt : n / 10 < fuel := by omega
      rw [parseDigits_concat, ih _ hlt, digitVal_digitChar _ (Nat.mod_lt _ (by decide))]
      simp only [Option.some_bind, Option.map_some']
      congr 1
      omega

theorem parseUnsigned_formatNat (n : Nat) : parseUnsigned (formatNat (n + 1) n) = some n := by
  have hne := formatNat_ne_nil n n
  have hp := parseDigits_formatNat (n + 1) n (by omega)
  cases hf : formatNat (n + 1) n with
  | nil => exact absurd hf hne
  | cons c cs => rw [hf] at hp; simpa [parseUnsigned] using hp

theorem pow_intSize : (2 : Int) ^ (intSize - 1) = 9223372036854775808 := by
  norm_num [intSize]

theorem Atoi_Itoa (x : Int) (hlo : minInt ≤ x) (hhi : x ≤ maxInt) : Atoi (Itoa x) = some x := by
  unfold minInt at hlo
  unfold maxInt at hhi
  rw [pow_intSize] at hlo hhi
  unfold Itoa
  split
  · next hneg =>
    simp only [Atoi, if_true, parseUnsigned_formatNat, pow_intSize]
    rw [if_pos (by omega)]
    congr 1
    omega
  · next hpos =>
    have hu := parseUnsigned_formatNat x.natAbs
    have hd := formatNat_digits (x.natAbs + 1) x.natAbs
    cases hf : formatNat (x.natAbs + 1) x.natAbs with
    | nil => exact absurd hf (formatNat_ne_nil _ _)
    | cons c cs =>
      rw [hf] at hu hd
      obtain ⟨d, hd10, hcd⟩ := hd c (by simp)
      have hplain := digitChar_plain d hd10
      rw [← hcd] at hplain
      simp only [Atoi, if_neg hplain.2.1, if_neg hplain.2.2.1, hu, pow_intSize]
      rw [if_pos (by omega)]
      congr 1
      omega

theorem Itoa_plain (x : Int) : ∀ c ∈ Itoa x, c ≠ ',' ∧ isSpace c = false := by
  intro c hc
  have key : ∀ c ∈ formatNat (x.natAbs + 1) x.natAbs, c ≠ ',' ∧ isSpace c = false := by
    intro c hc
    obtain ⟨d, hd10, hcd⟩ := formatNat_digits _ _ c hc
    have := digitChar_plain d hd10
    rw [← hcd] at this
    exact ⟨this.1, this.2.2.2⟩
  unfold Itoa at hc
  split at hc
  · rcases List.mem_cons.mp hc with h1 | h1
    · subst h1; decide
    · exact key c h1
  · exact key c hc

theorem isSpace_ne_comma (c : Char) (h : isSpace c = true) : c ≠ ',' := by
  intro e
  subst e
  revert h
  decide

/-! ## Lemmas on the loops of `parsePorts` -/

theorem render_plain (t : PaddedPort)
    (hb : ∀ c ∈ t.before, isSpace c = true) (ha : ∀ c ∈ t.after, isSpace c = true) :
    ',' ∉ t.render := by
  intro hmem
  unfold PaddedPort.render at hmem
  rcases List.mem_append.mp hmem with h | h
  · rcases List.mem_append.mp h with h | h
    · exact isSpace_ne_comma _ (hb _ h) rfl
    · exact (Itoa_plain t.value _ h).1 rfl
  · exact isSpace_ne_comma _ (ha _ h) rfl

theorem explicitLoop_padded (toks : List PaddedPort) (ports : List Int)
    (hfit : ∀ t ∈ toks, minInt ≤ t.value ∧ t.value ≤ maxInt)
    (hws : ∀ t ∈ toks, (∀ c ∈ t.before, isSpace c = true) ∧ (∀ c ∈ t.after, isSpace c = true)) :
    explicitLoop (toks.map PaddedPort.render) ports
      = (ports ++ toks.map PaddedPort.value, none) := by
  induction toks generalizing ports with
  | nil => simp [explicitLoop]
  | cons t rest ih =>
    have h1 := hfit t (by simp)
    have h2 := hws t (by simp)
    have htrim : TrimSpace t.render = Itoa t.value :=
      TrimSpace_padded _ _ _ h2.1 h2.2 (fun c hc => (Itoa_plain t.value c hc).2)
    simp only [List.map_cons, explicitLoop, htrim, Atoi_Itoa _ h1.1 h1.2]
    rw [ih _ (fun u hu => hfit u (by simp [hu])) (fun u hu => hws u (by simp [hu]))]
    simp

theorem joinComma_ne_nil (toks : List PaddedPort) (hne : toks ≠ []) :
    joinComma (toks.map PaddedPort.render) ≠ [] := by
  cases toks with
  | nil => exact absurd rfl hne
  | cons t rest =>
    have hI : Itoa t.value ≠ [] := by
      unfold Itoa
      split
      · simp
      · exact formatNat_ne_nil _ _
    cases rest with
    | nil =>
      simp only [List.map_cons, List.map_nil, joinComma, PaddedPort.render, ne_eq,
        List.append_eq_nil, not_and]
      intro h
      exact absurd h.2 hI
    | cons t2 rest2 => simp [joinComma]

/-- The explicit loop either fails on the first token that `Atoi` rejects, or
returns the parsed tokens after the ports it started with. -/
theorem explicitLoop_spec (parts : List GoString) (ports : List Int) :
    explicitLoop parts ports =
      match (parts.map TrimSpace).find? (fun t => (Atoi t).isNone) with
      | some t => ([], some (invalidPortMsg t))
      | none => (ports ++ (parts.map TrimSpace).filterMap Atoi, none) := by
  induction parts generalizing ports with
  | nil => simp [explicitLoop]
  | cons pStr rest ih =>
    simp only [explicitLoop, List.map_cons, List.find?_cons, List.filterMap_cons]
    cases hA : Atoi (TrimSpace pStr) with
    | none => simp
    | some p =>
      simp only [Option.isNone_some]
      rw [ih]
      cases hfind : List.find? (fun t => (Atoi t).isNone) (List.map TrimSpace rest) with
      | none => simp
      | some t => rfl

theorem explicitLoop_length (parts : List GoString) (ports out : List Int)
    (h : explicitLoop parts ports = (out, none)) : out.length = ports.length + parts.length := by
  induction parts generalizing ports with
  | nil =>
    simp only [explicitLoop, Prod.mk.injEq, and_true] at h
    simp [h]
  | cons pStr rest ih =>
    simp only [explicitLoop] at h
    cases hA : Atoi (TrimSpace pStr) with
    | none => rw [hA] at h; simp at h
    | some p =>
      rw [hA] at h
      have := ih _ h
      simp only [List.length_append, List.length_cons, List.length_nil] at this ⊢
      omega

theorem wrapInt_le_maxInt (x : Int) : wrapInt x ≤ maxInt := by
  unfold wrapInt maxInt
  have h : (x + 2 ^ (intSize - 1)) % 2 ^ intSize < 2 ^ intSize :=
    Int.emod_lt_of_pos _ (by norm_num [intSize])
  norm_num [intSize] at h ⊢
  omega

theorem wrapInt_of_fits (x : Int) (hlo : minInt ≤ x) (hhi : x ≤ maxInt) : wrapInt x = x := by
  unfold wrapInt
  unfold minInt at hlo
  unfold maxInt at hhi
  norm_num [intSize] at hlo hhi ⊢
  omega

theorem rangeLoop_maxInt (fuel : Nat) (p : Int) (ports : List Int) (hp : p ≤ maxInt) :
    rangeLoop fuel p maxInt ports = none := by
  induction fuel generalizing p ports with
  | zero => rfl
  | succ fuel ih =>
    unfold rangeLoop
    rw [if_pos hp]
    exact ih _ _ (wrapInt_le_maxInt _)

theorem intRange_succ (p : Int) (n : Nat) : intRange p (n + 1) = p :: intRange (p + 1) n := by
  simp only [intRange, List.range_succ_eq_map, List.map_cons, List.map_map]
  have h0 : p + ((0 : Nat) : Int) = p := by simp
  have hs : List.map ((fun i : Nat => p + (i : Int)) ∘ Nat.succ) (List.range n)
      = List.map (fun i : Nat => p + 1 + (i : Int)) (List.range n) := by
    apply List.map_congr_left
    intro i _
    show p + ((i + 1 : Nat) : Int) = p + 1 + (i : Int)
    omega
  rw [h0, hs]

theorem rangeLoop_below_maxInt (fuel : Nat) (p endPort : Int) (ports : List Int)
    (hlo : minInt ≤ p) (hhi : endPort < maxInt) (hle : p ≤ endPort + 1)
    (hfuel : (endPort + 1 - p).toNat < fuel) :
    rangeLoop fuel p endPort ports = some (ports ++ intRange p (endPort + 1 - p).toNat) := by
  induction fuel generalizing p ports with
  | zero => omega
  | succ fuel ih =>
    unfold rangeLoop
    split
    · next hpe =>
      have hw : wrapInt (p + 1) = p + 1 := wrapInt_of_fits _ (by omega) (by omega)
      rw [hw, ih (p + 1) _ (by omega) (by omega) (by omega)]
      have hn : (endPort + 1 - p).toNat = (endPort + 1 - (p + 1)).toNat + 1 := by omega
      rw [hn, intRange_succ]
      simp
    · next hpe =>
      have hn : (endPort + 1 - p).toNat = 0 := by omega
      simp [hn, intRange]

theorem rangeLoop_length (fuel : Nat) (p endPort : Int) (ports out : List Int)
    (h : rangeLoop fuel p endPort ports = some out) : ports.length ≤ out.length := by
  induction fuel generalizing p ports with
  | zero => simp [rangeLoop] at h
  | succ fuel ih =>
    unfold rangeLoop at h
    split at h
    · have := ih _ _ h
      simp only [List.length_append, List.length_cons, List.length_nil] at this
      omega
    · simp only [Option.some.injEq] at h
      simp [h]

theorem invalidPortMsg_ne_rangeErrorMsg (t : GoString) : invalidPortMsg t ≠ rangeErrorMsg := by
  intro h
  have h1 : (invalidPortMsg t).head? = some 'i' := rfl
  have h2 : rangeErrorMsg.head? = some 's' := rfl
  rw [h, h2] at h1
  exact absurd h1 (by decide)

/-! ## `parsePorts`: the explicit list -/

/-- C1: for a non-empty list of integers that fit an `int`, rendered in decimal,
each token optionally surrounded by white space, and joined with commas,
`parsePorts` succeeds and returns exactly those integers, in the same order and
with the same multiplicity, whatever `startPort` and `endPort` are. -/
theorem parsePorts_explicit_roundtrip (toks : List PaddedPort) (fuel : Nat)
    (startPort endPort : Int) (hne : toks ≠ [])
    (hfit : ∀ t ∈ toks, minInt ≤ t.value ∧ t.value ≤ maxInt)
    (hws : ∀ t ∈ toks, (∀ c ∈ t.before, isSpace c = true) ∧ (∀ c ∈ t.after, isSpace c = true)) :
    parsePorts fuel (joinComma (toks.map PaddedPort.render)) startPort endPort
      = some (toks.map PaddedPort.value, none) := by
  have hsplit : Split (joinComma (toks.map PaddedPort.render)) ',' = toks.map PaddedPort.render := by
    apply Split_joinComma
    · simpa using hne
    · intro t ht
      obtain ⟨u, hu, rfl⟩ := List.mem_map.mp ht
      exact render_plain u (hws u hu).1 (hws u hu).2
  unfold parsePorts
  rw [if_pos (joinComma_ne_nil toks hne), hsplit, explicitLoop_padded toks [] hfit hws]
  simp

/-- C1, at `" 80,80\t,-22,9223372036854775807"` with an inverted range. -/
theorem parsePorts_explicit_roundtrip_witness :
    parsePorts 0 (joinComma (List.map PaddedPort.render
        [⟨[' '], 80, []⟩, ⟨[], 80, ['\t']⟩, ⟨[], -22, []⟩, ⟨[], 9223372036854775807, []⟩])) 9 1
      = some ([80, 80, -22, 9223372036854775807], none) :=
  parsePorts_explicit_roundtrip
    [⟨[' '], 80, []⟩, ⟨[], 80, ['\t']⟩, ⟨[], -22, []⟩, ⟨[], 9223372036854775807, []⟩] 0 9 1
    (by decide) (by decide) (by decide)

/-! ## `parsePorts`: the range -/

/-- C2, the failing input: with an empty ports flag and
`startPort = endPort = maxInt` the range loop never exits, whatever the fuel:
`p++` wraps around to `minInt` and `p <= endPort` stays true. -/
theorem parsePorts_range_maxInt_diverges (fuel : Nat) :
    parsePorts fuel [] maxInt maxInt = none := by
  unfold parsePorts
  rw [if_neg (by simp), if_neg (by simp), rangeLoop_maxInt fuel maxInt [] (le_refl _)]

/-- The range branch below the largest `int`: for `startPort ≤ endPort < maxInt`
the loop ends (any fuel above the number of ports is enough) and returns
`startPort, startPort + 1, ..., endPort`. -/
theorem parsePorts_range_below_maxInt (fuel : Nat) (startPort endPort : Int)
    (hlo : minInt ≤ startPort) (hle : startPort ≤ endPort) (hhi : endPort < maxInt)
    (hfuel : (endPort + 1 - startPort).toNat < fuel) :
    parsePorts fuel [] startPort endPort
      = some (intRange startPort (endPort - startPort + 1).toNat, none) := by
  unfold parsePorts
  rw [if_neg (by simp), if_neg (by omega),
    rangeLoop_below_maxInt fuel startPort endPort [] hlo hhi (by omega) hfuel]
  have : endPort + 1 - startPort = endPort - startPort + 1 := by omega
  simp [this]

/-- C3: `parsePorts` returns the range error exactly when the ports flag is
empty and `startPort > endPort`, and then it returns no ports; a non-empty
ports flag never gives the range error. -/
theorem parsePorts_range_error_iff (fuel : Nat) (portsFlag : GoString)
    (startPort endPort : Int) (ports : List Int) :
    parsePorts fuel portsFlag startPort endPort = some (ports, some rangeErrorMsg)
      ↔ (ports = [] ∧ portsFlag = [] ∧ startPort > endPort) := by
  unfold parsePorts
  by_cases hflag : portsFlag = []
  · by_cases hgt : startPort > endPort
    · simp only [hflag, ne_eq, not_true_eq_false, if_false, hgt, if_true, Option.some.injEq,
        Prod.mk.injEq, and_true, true_and]
      exact eq_comm
    · simp only [hflag, ne_eq, not_true_eq_false, if_false, hgt, and_false, iff_false]
      cases rangeLoop fuel startPort endPort [] <;> simp
  · simp only [ne_eq, hflag, not_false_eq_true, if_true, false_and, and_false, iff_false,
      Option.some.injEq]
    rw [explicitLoop_spec]
    split
    · intro h
      simp only [Prod.mk.injEq, Option.some.injEq] at h
      exact invalidPortMsg_ne_rangeErrorMsg _ h.2
    · simp

/-- C4: for a non-empty ports flag `parsePorts` returns, and it fails exactly
when some comma-separated token, trimmed, is rejected by `Atoi`; then the port
list is nil and the message is `invalid port: ` followed by the first such
token, trimmed. An empty token and a token of white space only are rejected. -/
theorem parsePorts_invalid_port (fuel : Nat) (portsFlag : GoString) (startPort endPort : Int)
    (hne : portsFlag ≠ []) :
    (∃ r, parsePorts fuel portsFlag startPort endPort = some r
      ∧ (r.2 ≠ none ↔ ∃ t ∈ (Split portsFlag ',').map TrimSpace, Atoi t = none)
      ∧ (r.2 ≠ none →
          ∃ t, ((Split portsFlag ',').map TrimSpace).find? (fun t => (Atoi t).isNone) = some t
            ∧ r = ([], some (invalidPortMsg t))))
    ∧ Atoi [] = none
    ∧ (∀ tok : GoString, (∀ c ∈ tok, isSpace c = true) → Atoi (TrimSpace tok) = none) := by
  refine ⟨⟨explicitLoop (Split portsFlag ',') [], ?_, ?_, ?_⟩, rfl, ?_⟩
  · unfold parsePorts
    rw [if_pos hne]
  · rw [explicitLoop_spec]
    cases hfind : List.find? (fun t => (Atoi t).isNone) ((Split portsFlag ',').map TrimSpace) with
    | none =>
      simp only [ne_eq, not_true_eq_false, false_iff, not_exists, not_and]
      intro t ht hA
      have := List.find?_eq_none.mp hfind t ht
      simp [hA] at this
    | some t =>
      simp only [ne_eq, reduceCtorEq, not_false_eq_true, true_iff]
      have h1 := List.find?_some hfind
      have h2 := List.mem_of_find?_eq_some hfind
      exact ⟨t, h2, by simpa using h1⟩
  · rw [explicitLoop_spec]
    cases hfind : List.find? (fun t => (Atoi t).isNone) ((Split portsFlag ',').map TrimSpace) with
    | none => simp
    | some t => intro _; exact ⟨t, rfl, rfl⟩
  · intro tok htok
    rw [TrimSpace_of_all_space tok htok]
    rfl

/-- C4, at the flag `"80, x1 ,y"`. -/
theorem parsePorts_invalid_port_witness :
    parsePorts 0 "80, x1 ,y".toList 1 1024 = some ([], some "invalid port: x1".toList)
    ∧ ((∃ r, parsePorts 0 "80, x1 ,y".toList 1 1024 = some r
        ∧ (r.2 ≠ none ↔ ∃ t ∈ (Split "80, x1 ,y".toList ',').map TrimSpace, Atoi t = none)
        ∧ (r.2 ≠ none →
            ∃ t, ((Split "80, x1 ,y".toList ',').map TrimSpace).find?
                (fun t => (Atoi t).isNone) = some t
              ∧ r = ([], some (invalidPortMsg t))))
      ∧ Atoi [] = none
      ∧ (∀ tok : GoString, (∀ c ∈ tok, isSpace c = true) → Atoi (TrimSpace tok) = none)) :=
  ⟨by decide, parsePorts_invalid_port 0 "80, x1 ,y".toList 1 1024 (by decide)⟩

/-- C10: a list of ports that `parsePorts` returns without error is never
empty. -/
theorem parsePorts_ok_nonempty (fuel : Nat) (portsFlag : GoString) (startPort endPort : Int)
    (ports : List Int) (h : parsePorts fuel portsFlag startPort endPort = some (ports, none)) :
    ports ≠ [] := by
  unfold parsePorts at h
  split at h
  · simp only [Option.some.injEq] at h
    have hlen := explicitLoop_length _ _ _ h
    have hsplit := List.length_pos.mpr (Split_ne_nil portsFlag ',')
    intro hnil
    rw [hnil] at hlen
    simp only [List.length_nil] at hlen
    omega
  · split at h
    · simp at h
    · next hgt =>
      cases fuel with
      | zero => simp [rangeLoop] at h
      | succ fuel =>
        unfold rangeLoop at h
        rw [if_pos (by omega)] at h
        cases hr : rangeLoop fuel (wrapInt (startPort + 1)) endPort ([] ++ [startPort]) with
        | none => rw [hr] at h; simp at h
        | some out =>
          rw [hr] at h
          simp only [Option.some.injEq, Prod.mk.injEq, and_true] at h
          have hlen := rangeLoop_length _ _ _ _ _ hr
          intro hnil
          rw [h, hnil] at hlen
          simp at hlen

/-- C10, at the range 3..4. -/
theorem parsePorts_ok_nonempty_witness :
    parsePorts 5 [] 3 4 = some ([3, 4], none) ∧ ([3, 4] : List Int) ≠ [] :=
  ⟨by decide, parsePorts_ok_nonempty 5 [] 3 4 [3, 4] (by decide)⟩

/-! ## Lemmas on the scan of one target -/

theorem sum_map_set {α M : Type} [AddCommMonoid M] (f : α → M) (l : List α) (i : Nat) (a b : α)
    (h : l[i]? = some b) : ((l.set i a).map f).sum + f b = (l.map f).sum + f a := by
  induction l generalizing i with
  | nil => simp at h
  | cons x xs ih =>
    cases i with
    | zero =>
      simp only [List.getElem?_cons_zero, Option.some.injEq] at h
      subst h
      simp only [List.set_cons_zero, List.map_cons, List.sum_cons]
      abel
    | succ j =>
      simp only [List.getElem?_cons_succ] at h
      have := ih j h
      simp only [List.set_cons_succ, List.map_cons, List.sum_cons]
      rw [add_assoc, this, add_assoc]

theorem coe_cons (x : Int) (l : List Int) :
    ((x :: l : List Int) : Multiset Int) = {x} + (l : Multiset Int) := by
  rw [← Multiset.cons_coe, Multiset.singleton_add]

theorem coe_snoc (l : List Int) (x : Int) :
    ((l ++ [x] : List Int) : Multiset Int) = (l : Multiset Int) + {x} := by
  rw [← Multiset.coe_add, Multiset.coe_singleton]

theorem live_sum_eq_zero (l : List WorkerPc) (h : (l.map WorkerPc.live).sum = 0) :
    ∀ w ∈ l, w = WorkerPc.exited := by
  induction l with
  | nil => simp
  | cons x xs ih =>
    simp only [List.map_cons, List.sum_cons, Nat.add_eq_zero] at h
    intro w hw
    rcases List.mem_cons.mp hw with rfl | hw
    · cases w <;> simp_all [WorkerPc.live]
    · exact ih h.2 w hw

theorem live_sum_pos (l : List WorkerPc) (h : (l.map WorkerPc.live).sum ≠ 0) :
    ∃ (i : Nat) (w : WorkerPc), l[i]? = some w ∧ w ≠ WorkerPc.exited := by
  induction l with
  | nil => simp at h
  | cons x xs ih =>
    by_cases hx : x = WorkerPc.exited
    · subst hx
      simp only [List.map_cons, WorkerPc.live, List.sum_cons, zero_add] at h
      obtain ⟨i, w, hi, hw⟩ := ih h
      exact ⟨i + 1, w, by simpa using hi, hw⟩
    · exact ⟨0, x, by simp, hx⟩

theorem scanPort_Port (target : GoString) (port : Int) (dialer : GoString → DialOutcome) :
    (scanPort target port dialer).Port = port := by
  unfold scanPort
  dsimp only
  split
  · rfl
  · split <;> rfl

theorem Inv_init (cfg : ScanConfig) : Inv cfg ScanState.init where
  noPanic := rfl
  conserve := by simp [ScanState.init, MainPc.remaining]
  counter := rfl
  jobsFlag := rfl
  resultsFlag := rfl
  joined := by simp [ScanState.init, MainPc.hasWaited]
  drainedJobs := by simp [ScanState.init]
  launched := by simp [ScanState.init]
  drainedResults := by simp [ScanState.init, MainPc.isFinished]
  opens := by simp [ScanState.init]

theorem Inv_mainStep (cfg : ScanConfig) (s : ScanState) (h : Inv cfg s) :
    Inv cfg (mainStep cfg s) := by
  obtain ⟨main, workers, wg, jobs, jobsClosed, resultsChan, resultsClosed, progress,
    targetResults, openCount, panicked⟩ := s
  obtain ⟨h1, h2, h3, h4, h5, h6, h7, h8, h9, h10⟩ := h
  simp only at h1 h2 h3 h4 h5 h6 h7 h8 h9 h10
  cases main with
  | launching i =>
    simp only [MainPc.remaining, MainPc.hasClosedJobs, MainPc.hasWaited] at h2 h4 h5 h8
    unfold mainStep
    simp only
    split
    · next hlt =>
      refine ⟨h1, ?_, ?_, h4, h5, ?_, ?_, ?_, ?_, h10⟩
      · simpa [MainPc.remaining, WorkerPc.holding] using h2
      · simp [WorkerPc.live, h3]
      · simp [MainPc.hasWaited]
      · intro hmem
        simp only [List.mem_append, List.mem_singleton, reduceCtorEq, or_false] at hmem
        exact h7 hmem
      · simp only [List.length_append, List.length_singleton]
        omega
      · simp [MainPc.isFinished]
    · next hge =>
      refine ⟨h1, ?_, h3, h4, h5, ?_, h7, ?_, ?_, h10⟩
      · simpa [MainPc.remaining] using h2
      · simp [MainPc.hasWaited]
      · simp only
        omega
      · simp [MainPc.isFinished]
  | enqueuing rest =>
    simp only [MainPc.remaining, MainPc.hasClosedJobs, MainPc.hasWaited] at h2 h4 h5 h8
    subst h4
    cases rest with
    | nil =>
      unfold mainStep
      simp only
      refine ⟨h1, ?_, h3, rfl, h5, ?_, ?_, h8, ?_, h10⟩
      · simpa [MainPc.remaining] using h2
      · simp [MainPc.hasWaited]
      · intro hmem
        exact ⟨(h7 hmem).1, rfl⟩
      · simp [MainPc.isFinished]
    | cons port rest =>
      unfold mainStep
      simp only [Bool.false_eq_true, if_false]
      split
      · refine ⟨h1, ?_, h3, rfl, h5, ?_, ?_, h8, ?_, h10⟩
        · rw [← h2]
          simp only [MainPc.remaining, List.map_append, List.map_cons, List.map_nil,
            coe_snoc, coe_cons]
          abel
        · simp [MainPc.hasWaited]
        · intro hmem
          exact absurd (h7 hmem).2 (by simp)
        · simp [MainPc.isFinished]
      · exact ⟨h1, h2, h3, rfl, h5, h6, h7, h8, h9, h10⟩
  | waiting =>
    simp only [MainPc.remaining, MainPc.hasClosedJobs, MainPc.hasWaited] at h2 h4 h5 h8
    unfold mainStep
    simp only
    split
    · next hz =>
      refine ⟨h1, ?_, h3, h4, rfl, ?_, h7, h8, ?_, h10⟩
      · simpa [MainPc.remaining] using h2
      · intro _
        exact live_sum_eq_zero workers (by rw [← h3]; exact hz)
      · simp [MainPc.isFinished]
    · exact ⟨h1, h2, h3, h4, h5, h6, h7, h8, h9, h10⟩
  | collecting =>
    simp only [MainPc.remaining, MainPc.hasClosedJobs, MainPc.hasWaited] at h2 h4 h5 h8
    subst h5
    cases resultsChan with
    | nil =>
      unfold mainStep
      simp only [if_true]
      refine ⟨h1, ?_, h3, h4, rfl, ?_, h7, h8, ?_, h10⟩
      · simpa [MainPc.remaining] using h2
      · simpa [MainPc.hasWaited] using h6
      · simp
    | cons res rest =>
      unfold mainStep
      simp only
      refine ⟨h1, ?_, h3, h4, rfl, h6, h7, h8, ?_, ?_⟩
      · rw [← h2]
        simp only [MainPc.remaining, List.map_append, List.map_cons, List.map_nil,
          coe_snoc, coe_cons, Multiset.coe_nil]
        abel
      · simp [MainPc.isFinished]
      · simp only [List.countP_append, List.countP_cons, List.countP_nil, h10]
        cases res.Open <;> simp
  | finished =>
    unfold mainStep
    exact ⟨h1, h2, h3, h4, h5, h6, h7, h8, h9, h10⟩

theorem Inv_workerStep (cfg : ScanConfig) (s : ScanState) (i : Nat)
    (dialer : GoString → DialOutcome) (h : Inv cfg s) : Inv cfg (workerStep cfg s i dialer) := by
  obtain ⟨main, workers, wg, jobs, jobsClosed, resultsChan, resultsClosed, progress,
    targetResults, openCount, panicked⟩ := s
  obtain ⟨h1, h2, h3, h4, h5, h6, h7, h8, h9, h10⟩ := h
  simp only at h1 h2 h3 h4 h5 h6 h7 h8 h9 h10
  have keep : Inv cfg ⟨main, workers, wg, jobs, jobsClosed, resultsChan, resultsClosed, progress,
      targetResults, openCount, panicked⟩ := ⟨h1, h2, h3, h4, h5, h6, h7, h8, h9, h10⟩
  unfold workerStep
  simp only
  cases hw : workers[i]? with
  | none => exact keep
  | some w =>
    have hmem : w ∈ workers := List.getElem?_mem hw
    have hnot : w ≠ WorkerPc.exited → main.hasWaited = false := by
      intro hne
      cases hb : main.hasWaited with
      | false => rfl
      | true => exact absurd (h6 hb w hmem) hne
    have hold := fun a => sum_map_set WorkerPc.holding workers i a w hw
    have hlive := fun a => sum_map_set WorkerPc.live workers i a w hw
    cases w with
    | receiving =>
      have hwait := hnot (by simp)
      simp only [WorkerPc.holding, WorkerPc.live, add_zero] at hold hlive
      cases jobs with
      | nil =>
        simp only
        split
        · next hclosed =>
          refine ⟨h1, ?_, ?_, h4, h5, ?_, ?_, by simpa only [List.length_set] using h8, h9, h10⟩
          · simp only
            rw [hold]
            simpa [WorkerPc.holding] using h2
          · simp only
            have := hlive WorkerPc.exited
            simp only [WorkerPc.live, add_zero] at this
            omega
          · intro hb
            rw [hwait] at hb
            exact absurd hb (by simp)
          · intro _
            exact ⟨rfl, hclosed⟩
        · exact keep
      | cons task rest =>
        simp only
        refine ⟨h1, ?_, ?_, h4, h5, ?_, ?_, by simpa only [List.length_set] using h8, h9, h10⟩
        · simp only
          rw [hold, ← h2]
          simp only [WorkerPc.holding, scanPort_Port, List.map_cons, coe_cons]
          abel
        · simp only
          have := hlive (WorkerPc.sending task (scanPort task.Target task.Port dialer))
          simp only [WorkerPc.live] at this
          omega
        · intro hb
          rw [hwait] at hb
          exact absurd hb (by simp)
        · intro hex
          rcases List.mem_or_eq_of_mem_set hex with hex | hex
          · exact absurd (h7 hex).1 (by simp)
          · exact absurd hex (by simp)
    | sending task result =>
      have hwait := hnot (by simp)
      rw [hwait] at h5
      subst h5
      simp only [WorkerPc.holding, WorkerPc.live] at hold hlive
      simp only [Bool.false_eq_true, if_false]
      split
      · refine ⟨h1, ?_, ?_, h4, hwait.symm, ?_, ?_, by simpa only [List.length_set] using h8, ?_, h10⟩
        · simp only
          have hc := hold (WorkerPc.counting task)
          simp only [WorkerPc.holding, add_zero] at hc
          rw [← h2, ← hc]
          simp only [List.map_append, List.map_cons, List.map_nil, coe_snoc]
          abel
        · simp only
          have := hlive (WorkerPc.counting task)
          simp only [WorkerPc.live] at this
          omega
        · intro hb
          rw [hwait] at hb
          exact absurd hb (by simp)
        · intro hex
          rcases List.mem_or_eq_of_mem_set hex with hex | hex
          · exact h7 hex
          · exact absurd hex (by simp)
        · intro hfin
          cases main <;> simp [MainPc.isFinished, MainPc.hasWaited] at hfin hwait
      · exact ⟨h1, h2, h3, h4, hwait.symm, h6, h7, h8, h9, h10⟩
    | counting task =>
      have hwait := hnot (by simp)
      simp only [WorkerPc.holding, WorkerPc.live, add_zero] at hold hlive
      refine ⟨h1, ?_, ?_, h4, h5, ?_, ?_, by simpa only [List.length_set] using h8, h9, h10⟩
      · simp only
        rw [hold]
        simpa [WorkerPc.holding] using h2
      · simp only
        have := hlive WorkerPc.receiving
        simp only [WorkerPc.live] at this
        omega
      · intro hb
        rw [hwait] at hb
        exact absurd hb (by simp)
      · intro hex
        rcases List.mem_or_eq_of_mem_set hex with hex | hex
        · exact h7 hex
        · exact absurd hex (by simp)
    | exited => exact keep

theorem Inv_step (cfg : ScanConfig) (s : ScanState) (e : Event) (h : Inv cfg s) :
    Inv cfg (step cfg s e) := by
  unfold step
  split
  · exact h
  · cases e with
    | main => exact Inv_mainStep cfg s h
    | worker i dialer => exact Inv_workerStep cfg s i dialer h

theorem Inv_run (cfg : ScanConfig) (s : ScanState) (sched : List Event) (h : Inv cfg s) :
    Inv cfg (run cfg s sched) := by
  induction sched generalizing s with
  | nil => exact h
  | cons e rest ih => exact ih _ (Inv_step cfg s e h)

theorem run_append (cfg : ScanConfig) (s : ScanState) (a b : List Event) :
    run cfg s (a ++ b) = run cfg (run cfg s a) b := by
  simp [run, List.foldl_append]

/-- In every state that is not final some goroutine can move, and its move
lowers the measure: the scan cannot block and cannot run for ever. -/
theorem exists_progress (cfg : ScanConfig) (s : ScanState) (h : Inv cfg s)
    (hfin : s.main.isFinished = false) :
    ∃ e, (step cfg s e).measure cfg < s.measure cfg := by
  obtain ⟨main, workers, wg, jobs, jobsClosed, resultsChan, resultsClosed, progress,
    targetResults, openCount, panicked⟩ := s
  obtain ⟨h1, h2, h3, h4, h5, h6, h7, h8, h9, h10⟩ := h
  simp only at h1 h2 h3 h4 h5 h6 h7 h8 h9 h10 hfin
  subst h1
  have hcard := congrArg Multiset.card h2
  simp only [Multiset.card_add, Multiset.coe_card, List.length_map] at hcard
  cases main with
  | launching i =>
    refine ⟨Event.main, ?_⟩
    simp only [step, Bool.false_eq_true, if_false, mainStep]
    split
    · simp only [ScanState.measure, MainPc.weight, MainPc.remaining, List.map_append,
        List.sum_append, List.map_cons, List.map_nil, List.sum_cons, List.sum_nil,
        WorkerPc.weight]
      omega
    · simp only [ScanState.measure, MainPc.weight, MainPc.remaining]
      omega
  | enqueuing rest =>
    refine ⟨Event.main, ?_⟩
    simp only [MainPc.hasClosedJobs] at h4
    subst h4
    cases rest with
    | nil =>
      simp only [step, Bool.false_eq_true, if_false, mainStep, ScanState.measure, MainPc.weight,
        MainPc.remaining]
      omega
    | cons port rest =>
      simp only [MainPc.remaining, List.length_cons] at hcard
      have hcap : jobs.length < cfg.ports.length := by omega
      simp only [step, Bool.false_eq_true, if_false, mainStep, hcap, if_true, ScanState.measure,
        MainPc.weight, MainPc.remaining, List.length_append, List.length_cons, List.length_nil]
      omega
  | waiting =>
    simp only [MainPc.hasClosedJobs, MainPc.hasWaited] at h4 h5
    subst h4 h5
    by_cases hz : wg = 0
    · refine ⟨Event.main, ?_⟩
      simp only [step, Bool.false_eq_true, if_false, mainStep, hz, if_true, ScanState.measure,
        MainPc.weight, MainPc.remaining]
      omega
    · obtain ⟨i, w, hw, hne⟩ := live_sum_pos workers (by rw [← h3]; exact hz)
      refine ⟨Event.worker i (fun _ => DialOutcome.failed), ?_⟩
      have hwt := fun a => sum_map_set WorkerPc.weight workers i a w hw
      have hold := fun a => sum_map_set WorkerPc.holding workers i a w hw
      simp only [step, Bool.false_eq_true, if_false, workerStep, hw]
      cases w with
      | receiving =>
        cases jobs with
        | nil =>
          have := hwt WorkerPc.exited
          simp only [WorkerPc.weight] at this
          simp only [if_true, ScanState.measure, MainPc.weight, MainPc.remaining]
          omega
        | cons task rest =>
          have := hwt (WorkerPc.sending task (scanPort task.Target task.Port
            (fun _ => DialOutcome.failed)))
          simp only [WorkerPc.weight] at this
          simp only [ScanState.measure, MainPc.weight, MainPc.remaining, List.length_cons]
          omega
      | sending task result =>
        have hc := congrArg Multiset.card (hold (WorkerPc.counting task))
        simp only [WorkerPc.holding, add_zero, Multiset.card_add, Multiset.card_singleton] at hc
        have hcap : resultsChan.length < cfg.ports.length := by omega
        have := hwt (WorkerPc.counting task)
        simp only [WorkerPc.weight] at this
        simp only [Bool.false_eq_true, if_false, hcap, if_true, ScanState.measure, MainPc.weight,
          MainPc.remaining, List.length_append, List.length_cons, List.length_nil]
        omega
      | counting task =>
        have := hwt WorkerPc.receiving
        simp only [WorkerPc.weight] at this
        simp only [ScanState.measure, MainPc.weight, MainPc.remaining]
        omega
      | exited => exact absurd rfl hne
  | collecting =>
    refine ⟨Event.main, ?_⟩
    simp only [MainPc.hasWaited] at h5
    subst h5
    cases resultsChan with
    | nil =>
      simp only [step, Bool.false_eq_true, if_false, mainStep, if_true, ScanState.measure,
        MainPc.weight, MainPc.remaining]
      omega
    | cons res rest =>
      simp only [step, Bool.false_eq_true, if_false, mainStep, ScanState.measure,
        MainPc.weight, MainPc.remaining, List.length_cons]
      omega
  | finished => simp [MainPc.isFinished] at hfin

/-- From every state of the scan the final state can be reached. -/
theorem exists_completion (cfg : ScanConfig) (n : Nat) (s : ScanState) (h : Inv cfg s)
    (hn : s.measure cfg ≤ n) : ∃ more, (run cfg s more).main.isFinished = true := by
  induction n generalizing s with
  | zero =>
    cases hfin : s.main.isFinished with
    | true => exact ⟨[], hfin⟩
    | false =>
      obtain ⟨e, he⟩ := exists_progress cfg s h hfin
      omega
  | succ n ih =>
    cases hfin : s.main.isFinished with
    | true => exact ⟨[], hfin⟩
    | false =>
      obtain ⟨e, he⟩ := exists_progress cfg s h hfin
      obtain ⟨more, hmore⟩ := ih (step cfg s e) (Inv_step cfg s e h) (by omega)
      exact ⟨e :: more, hmore⟩

theorem holding_sum_of_exited (l : List WorkerPc) (h : ∀ w ∈ l, w = WorkerPc.exited) :
    (l.map WorkerPc.holding).sum = 0 := by
  induction l with
  | nil => rfl
  | cons x xs ih =>
    have hx : x = WorkerPc.exited := h x (by simp)
    subst hx
    simp only [List.map_cons, List.sum_cons, WorkerPc.holding, zero_add]
    exact ih (fun w hw => h w (by simp [hw]))

/-- In a final state the collected results carry exactly the ports of the
configuration, provided a worker was started or there is no port. -/
theorem collected_perm (cfg : ScanConfig) (s : ScanState) (h : Inv cfg s)
    (hfin : s.main.isFinished = true) (hw : 1 ≤ cfg.workers ∨ cfg.ports = []) :
    (s.targetResults.map PortResult.Port).Perm cfg.ports := by
  obtain ⟨main, workers, wg, jobs, jobsClosed, resultsChan, resultsClosed, progress,
    targetResults, openCount, panicked⟩ := s
  obtain ⟨h1, h2, h3, h4, h5, h6, h7, h8, h9, h10⟩ := h
  simp only at h1 h2 h3 h4 h5 h6 h7 h8 h9 h10 hfin ⊢
  cases main with
  | finished =>
    have hall := h6 rfl
    have hres := h9 rfl
    subst hres
    simp only [MainPc.remaining, holding_sum_of_exited workers hall, List.map_nil,
      Multiset.coe_nil, zero_add, add_zero] at h2
    rcases hw with hw | hw
    · have hlen : 0 < workers.length := by
        simp only at h8
        omega
      obtain ⟨w, hwmem⟩ := List.exists_mem_of_length_pos hlen
      have hex : WorkerPc.exited ∈ workers := by
        have := hall w hwmem
        rwa [this] at hwmem
      have hjobs := (h7 hex).1
      subst hjobs
      simp only [List.map_nil, Multiset.coe_nil, zero_add] at h2
      exact Multiset.coe_eq_coe.mp h2
    · rw [hw] at h2 ⊢
      have hle : ((targetResults.map PortResult.Port : List Int) : Multiset Int) ≤ 0 := by
        have := Multiset.le_add_left
          ((targetResults.map PortResult.Port : List Int) : Multiset Int)
          ((jobs.map Task.Port : List Int) : Multiset Int)
        rwa [h2] at this
      have hz := Multiset.le_zero.mp hle
      exact Multiset.coe_eq_coe.mp hz
  | launching i => simp [MainPc.isFinished] at hfin
  | enqueuing rest => simp [MainPc.isFinished] at hfin
  | waiting => simp [MainPc.isFinished] at hfin
  | collecting => simp [MainPc.isFinished] at hfin

/-- A step leaves the state as it is or lowers the measure. -/
theorem step_measure (cfg : ScanConfig) (s : ScanState) (e : Event) (h : Inv cfg s) :
    step cfg s e = s ∨ (step cfg s e).measure cfg < s.measure cfg := by
  obtain ⟨main, workers, wg, jobs, jobsClosed, resultsChan, resultsClosed, progress,
    targetResults, openCount, panicked⟩ := s
  obtain ⟨h1, h2, h3, h4, h5, h6, h7, h8, h9, h10⟩ := h
  simp only at h1 h2 h3 h4 h5 h6 h7 h8 h9 h10
  subst h1
  cases e with
  | main =>
    simp only [step, Bool.false_eq_true, if_false, mainStep]
    cases main with
    | launching i =>
      right
      simp only
      split
      · simp only [ScanState.measure, MainPc.weight, MainPc.remaining, List.map_append,
          List.sum_append, List.map_cons, List.map_nil, List.sum_cons, List.sum_nil,
          WorkerPc.weight]
        omega
      · simp only [ScanState.measure, MainPc.weight, MainPc.remaining]
        omega
    | enqueuing rest =>
      simp only [MainPc.hasClosedJobs] at h4
      subst h4
      cases rest with
      | nil =>
        right
        simp only [ScanState.measure, MainPc.weight, MainPc.remaining]
        omega
      | cons port rest =>
        simp only [Bool.false_eq_true, if_false]
        split
        · right
          simp only [ScanState.measure, MainPc.weight, MainPc.remaining, List.length_append,
            List.length_cons, List.length_nil]
          omega
        · left
          rfl
    | waiting =>
      simp only
      split
      · right
        simp only [ScanState.measure, MainPc.weight, MainPc.remaining]
        omega
      · left
        rfl
    | collecting =>
      cases resultsChan with
      | nil =>
        simp only
        split
        · right
          simp only [ScanState.measure, MainPc.weight, MainPc.remaining]
          omega
        · left
          rfl
      | cons res rest =>
        right
        simp only [ScanState.measure, MainPc.weight, MainPc.remaining, List.length_cons]
        omega
    | finished =>
      left
      rfl
  | worker i dialer =>
    simp only [step, Bool.false_eq_true, if_false, workerStep]
    cases hw : workers[i]? with
    | none =>
      left
      rfl
    | some w =>
      have hmem : w ∈ workers := List.getElem?_mem hw
      have hwt := fun a => sum_map_set WorkerPc.weight workers i a w hw
      cases w with
      | receiving =>
        cases jobs with
        | nil =>
          simp only
          split
          · right
            have := hwt WorkerPc.exited
            simp only [WorkerPc.weight] at this
            simp only [ScanState.measure]
            omega
          · left
            rfl
        | cons task rest =>
          right
          have := hwt (WorkerPc.sending task (scanPort task.Target task.Port dialer))
          simp only [WorkerPc.weight] at this
          simp only [ScanState.measure, List.length_cons]
          omega
      | sending task result =>
        have hwait : main.hasWaited = false := by
          cases hb : main.hasWaited with
          | false => rfl
          | true => exact absurd (h6 hb _ hmem) (by simp)
        rw [hwait] at h5
        subst h5
        simp only [Bool.false_eq_true, if_false]
        split
        · right
          have := hwt (WorkerPc.counting task)
          simp only [WorkerPc.weight] at this
          simp only [ScanState.measure, List.length_append, List.length_cons, List.length_nil]
          omega
        · left
          rfl
      | counting task =>
        right
        have := hwt WorkerPc.receiving
        simp only [WorkerPc.weight] at this
        simp only [ScanState.measure]
        omega
      | exited =>
        left
        rfl

/-- The steps of a schedule that change the state are paid for by the measure. -/
theorem effectiveSteps_le (cfg : ScanConfig) (s : ScanState) (sched : List Event)
    (h : Inv cfg s) :
    effectiveSteps cfg s sched + (run cfg s sched).measure cfg ≤ s.measure cfg := by
  induction sched generalizing s with
  | nil => simp [effectiveSteps, run]
  | cons e rest ih =>
    have hrest := ih (step cfg s e) (Inv_step cfg s e h)
    have hrun : run cfg s (e :: rest) = run cfg (step cfg s e) rest := rfl
    rw [hrun]
    unfold effectiveSteps
    rcases step_measure cfg s e h with heq | hlt
    · rw [if_pos heq]
      rw [heq] at hrest ⊢
      omega
    · split <;> omega

theorem scanTarget_eq_some (cfg : ScanConfig) (sched : List Event) (duration : GoString)
    (summary : TargetScanResult) (h : scanTarget cfg sched duration = some summary) :
    (run cfg ScanState.init sched).main.isFinished = true
      ∧ summary =
        { Target := cfg.target
          Results := (run cfg ScanState.init sched).targetResults
          OpenCount := (run cfg ScanState.init sched).openCount
          TotalPorts := (cfg.ports.length : Int)
          Duration := duration } := by
  unfold scanTarget at h
  simp only at h
  split at h
  · next hc =>
    simp only [Option.some.injEq] at h
    exact ⟨hc.1, h.symm⟩
  · simp at h

theorem scanTarget_isSome (cfg : ScanConfig) (sched : List Event) (duration : GoString)
    (h : (run cfg ScanState.init sched).main.isFinished = true) :
    (scanTarget cfg sched duration).isSome = true := by
  have hp := (Inv_run cfg _ sched (Inv_init cfg)).noPanic
  unfold scanTarget
  simp only
  rw [if_pos ⟨h, hp⟩]
  rfl

theorem run_launch (cfg : ScanConfig) (k : Nat) (hk : (k : Int) ≤ cfg.workers ∨ k = 0) :
    run cfg ScanState.init (List.replicate k Event.main)
      = { ScanState.init with
          main := .launching (k : Int)
          workers := List.replicate k WorkerPc.receiving
          wg := k } := by
  induction k with
  | zero => rfl
  | succ k ih =>
    have hk2 : ((k : Nat) : Int) + 1 ≤ cfg.workers := by omega
    rw [List.replicate_succ', run_append, ih (Or.inl (by omega))]
    have hlt : (k : Int) < cfg.workers := by omega
    simp only [run, List.foldl_cons, List.foldl_nil, step, ScanState.init, Bool.false_eq_true,
      if_false, mainStep, hlt, if_true, zero_add, Nat.cast_succ]
    rw [← List.replicate_succ']

theorem run_launch_all (cfg : ScanConfig) :
    run cfg ScanState.init (List.replicate (cfg.workers.toNat + 1) Event.main)
      = { ScanState.init with
          main := .enqueuing cfg.ports
          workers := List.replicate cfg.workers.toNat WorkerPc.receiving
          wg := cfg.workers.toNat } := by
  rw [List.replicate_succ', run_append, run_launch cfg cfg.workers.toNat (by omega)]
  have hge : ¬ ((cfg.workers.toNat : Nat) : Int) < cfg.workers := by omega
  simp only [run, List.foldl_cons, List.foldl_nil, step, ScanState.init, Bool.false_eq_true,
    if_false, mainStep, hge]

theorem scanSession_targets (ports : List Int) (workers : Int) (targets : List GoString)
    (envs : List (List Event × GoString)) (acc all : List TargetScanResult)
    (h : scanSession ports workers targets envs acc = some all) :
    all.map TargetScanResult.Target = acc.map TargetScanResult.Target ++ targets := by
  induction targets generalizing envs acc with
  | nil =>
    simp only [scanSession, Option.some.injEq] at h
    simp [h]
  | cons target rest ih =>
    cases envs with
    | nil => simp [scanSession] at h
    | cons env envs =>
      simp only [scanSession] at h
      cases hs : scanTarget { target := target, ports := ports, workers := workers } env.1 env.2 with
      | none => rw [hs] at h; simp at h
      | some summary =>
        rw [hs] at h
        have := ih envs _ h
        have ht := (scanTarget_eq_some _ _ _ _ hs).2
        rw [this, ht]
        simp

theorem scanSession_completes (ports : List Int) (workers : Int) (targets : List GoString)
    (acc : List TargetScanResult) :
    ∃ envs all, scanSession ports workers targets envs acc = some all := by
  induction targets generalizing acc with
  | nil => exact ⟨[], acc, rfl⟩
  | cons target rest ih =>
    obtain ⟨sched, hsched⟩ := exists_completion
      { target := target, ports := ports, workers := workers } _ ScanState.init
      (Inv_init _) (le_refl _)
    have hsome := scanTarget_isSome { target := target, ports := ports, workers := workers }
      sched [] hsched
    obtain ⟨summary, hsum⟩ := Option.isSome_iff_exists.mp hsome
    obtain ⟨envs, all, hall⟩ := ih (acc ++ [summary])
    refine ⟨(sched, []) :: envs, all, ?_⟩
    simp only [scanSession, hsum]
    exact hall

/-- Without a worker a step leaves the task queue unconsumed: the tasks in
`jobs` followed by the ports still to enqueue are the port list, and no result
is produced. -/
theorem idle_step (cfg : ScanConfig) (s : ScanState) (e : Event) (hw : cfg.workers ≤ 0)
    (h : Inv cfg s)
    (hq : s.jobs.map Task.Port ++ s.main.remaining cfg.ports = cfg.ports
      ∧ s.resultsChan = [] ∧ s.targetResults = []) :
    (step cfg s e).workers = []
      ∧ (step cfg s e).jobs.map Task.Port ++ (step cfg s e).main.remaining cfg.ports = cfg.ports
      ∧ (step cfg s e).resultsChan = [] ∧ (step cfg s e).targetResults = [] := by
  obtain ⟨main, workers, wg, jobs, jobsClosed, resultsChan, resultsClosed, progress,
    targetResults, openCount, panicked⟩ := s
  have h8 := h.launched
  obtain ⟨hq1, hq2, hq3⟩ := hq
  simp only at h8 hq1 hq2 hq3
  subst hq2 hq3
  have hnil : workers = [] := by
    apply List.eq_nil_of_length_eq_zero
    cases main <;> simp only at h8 <;> omega
  subst hnil
  unfold step
  simp only
  split
  · exact ⟨rfl, hq1, rfl, rfl⟩
  · cases e with
    | worker i dialer => exact ⟨rfl, hq1, rfl, rfl⟩
    | main =>
      simp only [mainStep]
      cases main with
      | launching i =>
        simp only at h8
        have hge : ¬ i < cfg.workers := by omega
        simp only [MainPc.remaining] at hq1
        simp only [hge, if_false, MainPc.remaining]
        exact ⟨trivial, hq1, trivial, trivial⟩
      | enqueuing rest =>
        cases rest with
        | nil => exact ⟨rfl, hq1, rfl, rfl⟩
        | cons port rest =>
          simp only [MainPc.remaining] at hq1
          simp only
          split
          · exact ⟨rfl, hq1, rfl, rfl⟩
          · split
            · refine ⟨rfl, ?_, rfl, rfl⟩
              simp only [MainPc.remaining, List.map_append, List.map_cons, List.map_nil,
                List.append_assoc, List.singleton_append]
              exact hq1
            · exact ⟨rfl, hq1, rfl, rfl⟩
      | waiting =>
        simp only
        split
        · exact ⟨rfl, hq1, rfl, rfl⟩
        · exact ⟨rfl, hq1, rfl, rfl⟩
      | collecting =>
        simp only
        split
        · exact ⟨rfl, hq1, rfl, rfl⟩
        · exact ⟨rfl, hq1, rfl, rfl⟩
      | finished => exact ⟨rfl, hq1, rfl, rfl⟩

theorem idle_run (cfg : ScanConfig) (s : ScanState) (sched : List Event) (hw : cfg.workers ≤ 0)
    (h : Inv cfg s) (hnil : s.workers = [])
    (hq : s.jobs.map Task.Port ++ s.main.remaining cfg.ports = cfg.ports
      ∧ s.resultsChan = [] ∧ s.targetResults = []) :
    (run cfg s sched).workers = []
      ∧ (run cfg s sched).jobs.map Task.Port ++ (run cfg s sched).main.remaining cfg.ports
          = cfg.ports
      ∧ (run cfg s sched).resultsChan = [] ∧ (run cfg s sched).targetResults = [] := by
  induction sched generalizing s with
  | nil => exact ⟨hnil, hq⟩
  | cons e rest ih =>
    have hs := idle_step cfg s e hw h hq
    exact ih (step cfg s e) (Inv_step cfg s e h) hs.1 hs.2

/-! ## The scan: claims -/

/-- C5, amended: when at least one worker is started (`workerCount ≥ 1`), or
there is no port, every complete scan of a target collects exactly the ports
enqueued, each once (the collected port numbers are a permutation of `ports`),
whatever the schedule; every schedule can be continued to a complete scan; and
no schedule makes more state-changing steps than the initial measure. -/
theorem scan_collects_every_port (cfg : ScanConfig)
    (hw : 1 ≤ cfg.workers ∨ cfg.ports = []) :
    (∀ sched duration summary, scanTarget cfg sched duration = some summary →
        (summary.Results.map PortResult.Port).Perm cfg.ports
          ∧ summary.Results.length = cfg.ports.length)
    ∧ (∀ sched, ∃ more, ∀ duration, (scanTarget cfg (sched ++ more) duration).isSome = true)
    ∧ (∀ sched, effectiveSteps cfg ScanState.init sched ≤ ScanState.init.measure cfg) := by
  refine ⟨?_, ?_, ?_⟩
  · intro sched duration summary h
    obtain ⟨hfin, hsum⟩ := scanTarget_eq_some cfg sched duration summary h
    have hperm := collected_perm cfg _ (Inv_run cfg _ sched (Inv_init cfg)) hfin hw
    rw [hsum]
    refine ⟨hperm, ?_⟩
    have := hperm.length_eq
    simpa using this
  · intro sched
    obtain ⟨more, hmore⟩ := exists_completion cfg _ (run cfg ScanState.init sched)
      (Inv_run cfg _ sched (Inv_init cfg)) (le_refl _)
    refine ⟨more, fun duration => scanTarget_isSome cfg _ duration ?_⟩
    rw [run_append]
    exact hmore
  · intro sched
    have := effectiveSteps_le cfg ScanState.init sched (Inv_init cfg)
    omega

/-- C5, at two ports and two workers. -/
theorem scan_collects_every_port_witness :
    (scanTarget demoConfig demoSchedule "1s".toList).map
        (fun r => r.Results.map PortResult.Port) = some [22, 80]
    ∧ (1 ≤ demoConfig.workers ∨ demoConfig.ports = [])
    ∧ (∀ sched duration summary, scanTarget demoConfig sched duration = some summary →
        (summary.Results.map PortResult.Port).Perm demoConfig.ports
          ∧ summary.Results.length = demoConfig.ports.length) :=
  ⟨by decide, by decide, (scan_collects_every_port demoConfig (by decide)).1⟩

/-- C5 as stated fails: with `workerCount = 0` no worker is started, the scan
of one port completes and collects no outcome. -/
theorem scan_without_worker_drops_ports :
    scanTarget idleConfig idleSchedule "1s".toList
        = some { Target := "host".toList, Results := [], OpenCount := 0, TotalPorts := 1,
                 Duration := "1s".toList }
    ∧ idleConfig.ports = [80]
    ∧ ([] : List PortResult).length ≠ idleConfig.ports.length := by
  decide

/-- C6, amended: in every summary `OpenCount` is the number of entries of
`Results` whose `Open` is true and `TotalPorts` is the length of the port list;
`TotalPorts` is the length of `Results` when at least one worker is started
(or there is no port). -/
theorem summary_counts (cfg : ScanConfig) (sched : List Event) (duration : GoString)
    (summary : TargetScanResult) (h : scanTarget cfg sched duration = some summary) :
    summary.OpenCount = ((summary.Results.countP (fun r => r.Open) : Nat) : Int)
    ∧ summary.TotalPorts = (cfg.ports.length : Int)
    ∧ ((1 ≤ cfg.workers ∨ cfg.ports = []) →
        summary.TotalPorts = (summary.Results.length : Int)) := by
  obtain ⟨hfin, hsum⟩ := scanTarget_eq_some cfg sched duration summary h
  have hinv := Inv_run cfg _ sched (Inv_init cfg)
  rw [hsum]
  refine ⟨hinv.opens, rfl, ?_⟩
  intro hw
  have hperm := collected_perm cfg _ hinv hfin hw
  have := hperm.length_eq
  simp only [List.length_map] at this
  simp only [this]

/-- C6, at two ports and two workers, one port open. -/
theorem summary_counts_witness :
    scanTarget demoConfig demoSchedule "1s".toList
        = some { Target := "host".toList,
                 Results := [⟨22, false, []⟩, ⟨80, true, "hello".toList⟩],
                 OpenCount := 1, TotalPorts := 2, Duration := "1s".toList }
    ∧ ((1 : Int) = ((List.countP (fun r => r.Open)
          [(⟨22, false, []⟩ : PortResult), ⟨80, true, "hello".toList⟩] : Nat) : Int)
      ∧ (2 : Int) = (demoConfig.ports.length : Int)
      ∧ ((1 ≤ demoConfig.workers ∨ demoConfig.ports = []) →
          (2 : Int) = (([(⟨22, false, []⟩ : PortResult), ⟨80, true, "hello".toList⟩].length
            : Nat) : Int))) :=
  ⟨by decide,
    summary_counts demoConfig demoSchedule "1s".toList
      { Target := "host".toList, Results := [⟨22, false, []⟩, ⟨80, true, "hello".toList⟩],
        OpenCount := 1, TotalPorts := 2, Duration := "1s".toList }
      (by decide)⟩

/-- C6 as stated fails: with `workerCount = 0` the summary of a scan of one
port has `TotalPorts = 1` and no result. -/
theorem summary_total_without_worker :
    (scanTarget idleConfig idleSchedule "1s".toList).map
        (fun r => (r.TotalPorts, r.Results.length, r.OpenCount)) = some (1, 0, 0)
    ∧ (1 : Int) ≠ ((0 : Nat) : Int) := by
  decide

/-- C7, amended: the number of workers started for a target is
`max(0, workerCount)`: the launch loop starts `workerCount` workers, none for
a `workerCount` of zero or below, and always ends. With a `workerCount` of
zero or below the task queue is never consumed: under every schedule there is
no worker, every task enqueued so far is still in `jobs` (the ports in `jobs`
followed by the ports still to enqueue are the port list, so once main is past
the enqueue loop `jobs` holds every port), and no result is sent or
collected. -/
theorem workers_started (cfg : ScanConfig) :
    (∀ sched, (run cfg ScanState.init sched).main.hasLaunched = true →
        ((run cfg ScanState.init sched).workers.length : Int) = max 0 cfg.workers)
    ∧ (run cfg ScanState.init (List.replicate (cfg.workers.toNat + 1) Event.main)).main
        = MainPc.enqueuing cfg.ports
    ∧ (run cfg ScanState.init (List.replicate (cfg.workers.toNat + 1) Event.main)).workers
        = List.replicate cfg.workers.toNat WorkerPc.receiving
    ∧ (cfg.workers ≤ 0 → ∀ sched,
        (run cfg ScanState.init sched).workers = []
        ∧ (run cfg ScanState.init sched).jobs.map Task.Port
            ++ (run cfg ScanState.init sched).main.remaining cfg.ports = cfg.ports
        ∧ ((run cfg ScanState.init sched).main.hasClosedJobs = true →
            (run cfg ScanState.init sched).jobs.map Task.Port = cfg.ports)
        ∧ (run cfg ScanState.init sched).resultsChan = []
        ∧ (run cfg ScanState.init sched).targetResults = []) := by
  refine ⟨?_, ?_, ?_, ?_⟩
  rotate_left 3
  · intro hw sched
    obtain ⟨h1, h2, h3, h4⟩ := idle_run cfg ScanState.init sched hw (Inv_init cfg) rfl
      ⟨by simp [ScanState.init, MainPc.remaining], rfl, rfl⟩
    refine ⟨h1, h2, ?_, h3, h4⟩
    intro hc
    cases hm : (run cfg ScanState.init sched).main with
    | launching i => rw [hm] at hc; simp [MainPc.hasClosedJobs] at hc
    | enqueuing rest => rw [hm] at hc; simp [MainPc.hasClosedJobs] at hc
    | waiting => rw [hm] at h2; simpa [MainPc.remaining] using h2
    | collecting => rw [hm] at h2; simpa [MainPc.remaining] using h2
    | finished => rw [hm] at h2; simpa [MainPc.remaining] using h2
  · intro sched hl
    have hinv := (Inv_run cfg _ sched (Inv_init cfg)).launched
    cases hm : (run cfg ScanState.init sched).main with
    | launching i => rw [hm] at hl; simp [MainPc.hasLaunched] at hl
    | enqueuing rest => rw [hm] at hinv; simp only at hinv; omega
    | waiting => rw [hm] at hinv; simp only at hinv; omega
    | collecting => rw [hm] at hinv; simp only at hinv; omega
    | finished => rw [hm] at hinv; simp only at hinv; omega
  · rw [run_launch_all]
  · rw [run_launch_all]

/-- C7 as stated fails: with `workerCount = 0` the launch loop ends with no
worker started, not with `max(1, 0) = 1`, and at the end of the scan the one
task is still in the queue. -/
theorem no_worker_started_at_zero :
    (run idleConfig ScanState.init [Event.main]).main = MainPc.enqueuing [80]
    ∧ (run idleConfig ScanState.init [Event.main]).workers = []
    ∧ (((run idleConfig ScanState.init [Event.main]).workers.length : Nat) : Int)
        ≠ max 1 idleConfig.workers
    ∧ (run idleConfig ScanState.init idleSchedule).main = MainPc.finished
    ∧ (run idleConfig ScanState.init idleSchedule).jobs
        = [{ Target := "host".toList, Port := 80 }] := by
  decide

/-- C8: `scanPort` is the reference probe: the port is the input port; a failed
dial gives a closed port without banner; a successful dial gives an open port
whose banner is the trimmed text read when the read returned no error and at
least one byte, and is empty otherwise; a non-empty banner implies an open
port. -/
theorem scanPort_refines (target : GoString) (port : Int) (dialer : GoString → DialOutcome) :
    scanPort target port dialer = scanPortSpec target port dialer
    ∧ (scanPort target port dialer).Port = port
    ∧ (dialer (JoinHostPort target (Itoa port)) = DialOutcome.failed →
        scanPort target port dialer = { Port := port, Open := false, Banner := [] })
    ∧ (∀ read, dialer (JoinHostPort target (Itoa port)) = DialOutcome.connected read →
        scanPort target port dialer
          = { Port := port, Open := true,
              Banner := if read.err = false ∧ 0 < read.n then TrimSpace read.text else [] })
    ∧ ((scanPort target port dialer).Banner ≠ [] → (scanPort target port dialer).Open = true) := by
  unfold scanPort scanPortSpec
  dsimp only
  cases hd : dialer (JoinHostPort target (Itoa port)) with
  | failed => simp
  | connected read =>
    by_cases hc : read.err = false ∧ 0 < read.n
    · simp [hc]
    · simp only [if_neg hc]
      simp
      intro h1 h2
      exact absurd ⟨h1, h2⟩ hc

/-- C9: the session result holds exactly one summary per target, in the order
of the targets, the i-th summary naming the i-th target, whatever the ports,
the worker count and the schedules; and the session always can complete. -/
theorem session_follows_targets (ports : List Int) (workers : Int) (targets : List GoString) :
    (∀ envs all, scanSession ports workers targets envs [] = some all →
        all.map TargetScanResult.Target = targets ∧ all.length = targets.length)
    ∧ (∃ envs all, scanSession ports workers targets envs [] = some all) := by
  refine ⟨?_, scanSession_completes ports workers targets []⟩
  intro envs all h
  have := scanSession_targets ports workers targets envs [] all h
  simp only [List.map_nil, List.nil_append] at this
  refine ⟨this, ?_⟩
  have hl := congrArg List.length this
  simpa using hl

end PortScanner
